import Mathlib

/-!
# Road-name extractor (`City/city.cpp`)

A shallow embedding of the two functions of `city.cpp`:

* `split`, the token splitter, a `while (getline (ss, tok, delimiter))` loop over a
  `stringstream`;
* `main`, the line scanner, a `for (string line; getline (input, line); )` loop over an
  `ifstream` which, for every line that contains the marker, slices the line with two
  `substr` calls, splits the slice on `>` and writes element 1 of the result.

Strings are lists of characters.  A stream is its unread characters together with its
`eofbit` and `failbit`.  Sizes are natural numbers; the one `size_t` subtraction of the
program wraps modulo `2 ^ 64` when it underflows.  An uncaught `std::out_of_range` and an
out-of-bounds `operator[]` both end the run with a `Fault`.
-/

namespace City

/-- A `std::string`: a finite sequence of characters. -/
abbrev Str := List Char

/-! ## Streams and `getline` -/

/-- An input stream (`stringstream`, `ifstream`): the characters not yet read and the two
state flags the program depends on. -/
structure IStream where
  /-- The unread characters. -/
  buf : Str
  /-- End of input was reached while reading. -/
  eofbit : Bool
  /-- The last operation failed (or the file could not be opened). -/
  failbit : Bool
deriving DecidableEq

/-- Stream test `good()`: no state flag is set. -/
def IStream.good (ss : IStream) : Bool := !ss.eofbit && !ss.failbit

/-- Declaration `stringstream ss(str)`: a fresh stream over the characters of `str`. -/
def stringstream (str : Str) : IStream := ⟨str, false, false⟩

/-- Declaration `ifstream input("city.txt")`.  The file is `some content` when it can be
opened and `none` when it cannot; a failed open sets `failbit`. -/
def ifstream (file : Option Str) : IStream :=
  match file with
  | some content => ⟨content, false, false⟩
  | none => ⟨[], false, true⟩

/-- The character loop of `getline`: append characters to `tok` until the delimiter has
been read (and discarded) or the input is exhausted.  Returns the token, the unread
characters and whether the end of input was hit. -/
def extract (delim : Char) : Str → Str → Str × Str × Bool
  | tok, [] => (tok, [], true)
  | tok, c :: rest =>
    if c = delim then (tok, rest, false) else extract delim (tok ++ [c]) rest

/-- Call `getline(ss, tok, delim)`.  On a stream that is not `good()` it sets `failbit` and
leaves `tok` alone.  Otherwise it clears `tok`, runs the character loop, sets `eofbit` if
the input ran out, and sets `failbit` if no character at all was extracted. -/
def getline (ss : IStream) (tok : Str) (delim : Char) : IStream × Str :=
  if ss.good then
    let r := extract delim [] ss.buf
    (⟨r.2.1, r.2.2, decide (ss.buf.length - r.2.1.length = 0)⟩, r.1)
  else
    (⟨ss.buf, ss.eofbit, true⟩, tok)

/-! ## `split` -/

/-- The loop `while (getline(ss, tok, delimiter)) internal.push_back(tok);` followed by
`return internal`.  The first argument bounds the number of `getline` calls; `none` means
the bound was reached before the loop ended. -/
def splitLoop (delimiter : Char) : Nat → IStream → Str → List Str → Option (List Str)
  | 0, _, _, _ => none
  | fuel + 1, ss, tok, internal =>
    let r := getline ss tok delimiter
    if r.1.failbit then some internal
    else splitLoop delimiter fuel r.1 r.2 (internal ++ [r.2])

/-- Function `vector<string> split(string str, char delimiter)`.  The loop makes at most
`str.size() + 1` calls of `getline` (`splitLoop_returns` below), so the bound is never
reached. -/
def split (str : Str) (delimiter : Char) : List Str :=
  (splitLoop delimiter (str.length + 1) (stringstream str) [] []).getD []

/-! ## `main` -/

/-- The double quote character. -/
def dquote : Char := Char.ofNat 34

/-- The marker literal `href="#roads-` (13 characters). -/
def marker : Str := "href=".toList ++ dquote :: "#roads-".toList

/-- Search of `std::string::find` from position `i` on: position of the first occurrence
of `pat`, or `none` for `npos`. -/
def findFrom (pat : Str) : Str → Nat → Option Nat
  | [], i => if pat = [] then some i else none
  | c :: cs, i => if pat.isPrefixOf (c :: cs) then some i else findFrom pat cs (i + 1)

/-- Call `s.find(pat)`; `none` stands for `string::npos`. -/
def find (s pat : Str) : Option Nat := findFrom pat s 0

/-- Subtraction of `size_t` values: wraps modulo `2 ^ 64` when `a < b`. -/
def sizeSub (a b : Nat) : Nat := if b ≤ a then a - b else a + 2 ^ 64 - b

/-- The ways a run can end abnormally. -/
inductive Fault where
  /-- An uncaught `std::out_of_range`, thrown by `substr`. -/
  | out_of_range
  /-- The access `res[1]` past the end of the vector (undefined behaviour). -/
  | index_out_of_bounds
deriving DecidableEq

/-- Call `s.substr(pos, count)`; `count = none` is the default `npos`.  Throws when
`pos > s.size()`, otherwise returns the characters `[pos, pos + min(count, size - pos))`. -/
def substr (s : Str) (pos : Nat) (count : Option Nat) : Except Fault Str :=
  if pos > s.length then .error .out_of_range
  else
    match count with
    | some n => .ok ((s.drop pos).take n)
    | none => .ok (s.drop pos)

/-- The two slicing statements of `main`:
`roadName = line.substr(0, line.size()-4); roadName = roadName.substr(12);`. -/
def roadName (line : Str) : Except Fault Str :=
  match substr line 0 (some (sizeSub line.length 4)) with
  | .error e => .error e
  | .ok r => substr r 12 none

/-- The body of the `for` loop of `main` on one line: the characters it writes to `cout`,
or the fault that ends the run. -/
def body (line : Str) : Except Fault Str :=
  if find line marker ≠ none then
    match roadName line with
    | .error e => .error e
    | .ok r =>
      let res := split r '>'
      match res[1]? with
      | none => .error .index_out_of_bounds
      | some name => .ok (dquote :: name ++ dquote :: [',', ' '])
  else .ok []

deriving instance DecidableEq for Except

/-- The result of a run: everything written to standard output, and the fault that ended
the run, `none` when control fell off the end of `main`. -/
structure Run where
  /-- The characters written to `cout`. -/
  out : Str
  /-- The fault that ended the run, if any. -/
  fault : Option Fault
deriving DecidableEq

/-- The loop `for (string line; getline(input, line); ) ...` of `main`, with the output
written so far.  The first argument bounds the number of `getline` calls. -/
def mainLoop : Nat → IStream → Str → Str → Option Run
  | 0, _, _, _ => none
  | fuel + 1, input, line, out =>
    let r := getline input line '\n'
    if r.1.failbit then some ⟨out, none⟩
    else
      match body r.2 with
      | .error e => some ⟨out, some e⟩
      | .ok chunk => mainLoop fuel r.1 r.2 (out ++ chunk)

/-- Function `main`, run on a file system in which `city.txt` has the given content
(`none`: it cannot be opened).  The loop makes at most `content.size() + 1` calls of
`getline` (`mainLoop_returns` below). -/
def main (file : Option Str) : Run :=
  let input := ifstream file
  (mainLoop (input.buf.length + 1) input [] []).getD ⟨[], none⟩

/-! ## The scan as a function of the lines, and the vocabulary of the specification -/

/-- The loop body of `main` run over a sequence of lines, in order, starting with `out`
already written: the scan as a function of the lines read (`main_eq_scan` below). -/
def scan : List Str → Str → Run
  | [], out => ⟨out, none⟩
  | line :: rest, out =>
    match body line with
    | .error e => ⟨out, some e⟩
    | .ok chunk => scan rest (out ++ chunk)

/-- The fields of a string, by recursion on the string: what the `getline` loop of `split`
computes (`split_eq_fields`). -/
def fields (d : Char) : Str → List Str
  | [] => []
  | c :: rest =>
    if c = d then [] :: fields d rest
    else
      match fields d rest with
      | [] => [[c]]
      | f :: fs => (c :: f) :: fs

/-- The fields joined back, with the delimiter between consecutive fields. -/
def join (d : Char) : List Str → Str
  | [] => []
  | [f] => f
  | f :: g :: fs => f ++ d :: join d (g :: fs)

/-- The run of characters after the final occurrence of `d` in `s` (all of `s` when `d`
does not occur): the longest delimiter-free suffix. -/
def lastRun (d : Char) (s : Str) : Str := s.rtakeWhile (fun c => c != d)

/-- A line is well formed when the slicing succeeds and the candidate splits on `>` into
at least two fields. -/
def wellFormed (line : Str) : Bool :=
  match roadName line with
  | .ok c => decide (2 ≤ (split c '>').length)
  | .error _ => false

/-- The chunk prescribed for a marker line: a double quote, the field at index 1 of the
split of the line less its last 4 and then its first 12 characters, a double quote, a
comma and a space. -/
def quoted (line : Str) : Str :=
  dquote :: (split ((line.rdrop 4).drop 12) '>').getD 1 [] ++ [dquote, ',', ' ']

/-- The prescribed output for a sequence of lines: one chunk for every line that contains
the marker, in line order, and nothing else. -/
def expected (lines : List Str) : Str :=
  ((lines.filter (fun line => decide (marker <:+: line))).map quoted).flatten

/-- The line of the end-to-end example, `<li><a href="#roads-Main Street>></li>`. -/
def exampleLine : Str := "<li><a href=\"#roads-Main Street>></li>".toList

/-! ## `getline` and the fields of a string -/

theorem fields_cons_delim (d : Char) (rest : Str) :
    fields d (d :: rest) = [] :: fields d rest := by
  simp [fields]

theorem fields_cons_other (d c : Char) (rest : Str) (h : c ≠ d) :
    fields d (c :: rest) =
      match fields d rest with
      | [] => [[c]]
      | f :: fs => (c :: f) :: fs := by
  simp [fields, h]

theorem extract_append (d : Char) (pre post : Str) (h : d ∉ pre) (tok : Str) :
    extract d tok (pre ++ d :: post) = (tok ++ pre, post, false) := by
  induction pre generalizing tok with
  | nil => simp [extract]
  | cons c pre ih =>
    have hc : c ≠ d := fun e => h (by simp [e])
    have hp : d ∉ pre := fun e => h (List.mem_cons_of_mem _ e)
    simp [extract, hc, ih hp]

theorem extract_of_not_mem (d : Char) (buf : Str) (h : d ∉ buf) (tok : Str) :
    extract d tok buf = (tok ++ buf, [], true) := by
  induction buf generalizing tok with
  | nil => simp [extract]
  | cons c buf ih =>
    have hc : c ≠ d := fun e => h (by simp [e])
    have hp : d ∉ buf := fun e => h (List.mem_cons_of_mem _ e)
    simp [extract, hc, ih hp]

theorem exists_first_occurrence (d : Char) (buf : Str) (h : d ∈ buf) :
    ∃ pre post, buf = pre ++ d :: post ∧ d ∉ pre := by
  induction buf with
  | nil => simp at h
  | cons c buf ih =>
    by_cases hc : c = d
    · exact ⟨[], buf, by simp [hc], by simp⟩
    · have hm : d ∈ buf := by
        rcases List.mem_cons.1 h with e | e
        · exact absurd e.symm hc
        · exact e
      obtain ⟨pre, post, e, hn⟩ := ih hm
      refine ⟨c :: pre, post, by simp [e], ?_⟩
      intro hmem
      rcases List.mem_cons.1 hmem with e1 | e1
      · exact hc e1.symm
      · exact hn e1

theorem fields_append (d : Char) (pre post : Str) (h : d ∉ pre) :
    fields d (pre ++ d :: post) = pre :: fields d post := by
  induction pre with
  | nil => simp [fields]
  | cons c pre ih =>
    have hc : c ≠ d := fun e => h (by simp [e])
    have hp : d ∉ pre := fun e => h (List.mem_cons_of_mem _ e)
    simp [fields, hc, ih hp]

theorem fields_of_not_mem (d : Char) (buf : Str) (h : d ∉ buf) (hne : buf ≠ []) :
    fields d buf = [buf] := by
  induction buf with
  | nil => exact absurd rfl hne
  | cons c buf ih =>
    have hc : c ≠ d := fun e => h (by simp [e])
    have hp : d ∉ buf := fun e => h (List.mem_cons_of_mem _ e)
    cases buf with
    | nil => simp [fields, hc]
    | cons b buf =>
      rw [fields_cons_other d c _ hc, ih hp (by simp)]

theorem fields_eq_nil (d : Char) (s : Str) : fields d s = [] ↔ s = [] := by
  cases s with
  | nil => simp [fields]
  | cons c rest =>
    simp only [fields]
    split
    · simp
    · split <;> simp

/-- A `getline` that meets the delimiter: the token is what stood before it, and the stream
stays good. -/
theorem getline_delim (d : Char) (pre post : Str) (h : d ∉ pre) (tok : Str) :
    getline ⟨pre ++ d :: post, false, false⟩ tok d = (⟨post, false, false⟩, pre) := by
  have hx := extract_append d pre post h []
  simp only [List.nil_append] at hx
  have hf : ¬ ((pre ++ d :: post).length - post.length = 0) := by
    simp only [List.length_append, List.length_cons]; omega
  simp only [getline, IStream.good, hx, hf]
  simp

/-- A `getline` that runs into the end of a non-empty input: the token is all of it, and
`eofbit` is set. -/
theorem getline_rest (d : Char) (buf : Str) (h : d ∉ buf) (hne : buf ≠ []) (tok : Str) :
    getline ⟨buf, false, false⟩ tok d = (⟨[], true, false⟩, buf) := by
  have hx := extract_of_not_mem d buf h []
  simp only [List.nil_append] at hx
  have hf : ¬ (buf.length - ([] : Str).length = 0) := by
    have := List.length_pos.2 hne
    simp only [List.length_nil]; omega
  simp only [getline, IStream.good, hx, hf]
  simp

/-- A `getline` on exhausted input extracts nothing and fails. -/
theorem getline_nil (d : Char) (tok : Str) :
    getline ⟨[], false, false⟩ tok d = (⟨[], true, true⟩, []) := by
  simp [getline, IStream.good, extract]

/-- A `getline` on a stream that is not good fails and leaves the token alone. -/
theorem getline_not_good (d : Char) (ss : IStream) (h : ss.good = false) (tok : Str) :
    getline ss tok d = (⟨ss.buf, ss.eofbit, true⟩, tok) := by
  simp [getline, h]

/-- On a stream that is not good the loop of `split` ends at its first test. -/
theorem splitLoop_not_good (d : Char) (fuel : Nat) (ss : IStream) (h : ss.good = false)
    (tok : Str) (internal : List Str) :
    splitLoop d (fuel + 1) ss tok internal = some internal := by
  simp [splitLoop, getline, h]

theorem splitLoop_eq (d : Char) (fuel : Nat) (buf : Str) (h : buf.length < fuel)
    (tok : Str) (internal : List Str) :
    splitLoop d fuel ⟨buf, false, false⟩ tok internal = some (internal ++ fields d buf) := by
  induction fuel generalizing buf tok internal with
  | zero => omega
  | succ fuel ih =>
    by_cases hmem : d ∈ buf
    · obtain ⟨pre, post, e, hn⟩ := exists_first_occurrence d buf hmem
      subst e
      have hlen : post.length < fuel := by simp at h; omega
      rw [splitLoop, getline_delim d pre post hn, fields_append d pre post hn]
      simp [ih post hlen]
    · cases buf with
      | nil => simp [splitLoop, getline_nil, fields]
      | cons c rest =>
        have hfuel : ∃ k, fuel = k + 1 := ⟨fuel - 1, by simp at h; omega⟩
        obtain ⟨k, rfl⟩ := hfuel
        rw [fields_of_not_mem d (c :: rest) hmem (by simp), splitLoop,
          getline_rest d (c :: rest) hmem (by simp)]
        simp [splitLoop_not_good, IStream.good]

theorem splitLoop_returns (str : Str) (d : Char) (fuel : Nat) (h : str.length < fuel) :
    splitLoop d fuel (stringstream str) [] [] = some (split str d) := by
  have e1 := splitLoop_eq d fuel str h [] []
  have e2 := splitLoop_eq d (str.length + 1) str (Nat.lt_succ_self _) [] []
  simp only [stringstream, split, e1, e2, Option.getD_some]

theorem split_eq_fields (str : Str) (d : Char) : split str d = fields d str := by
  simp [split, stringstream, splitLoop_eq d (str.length + 1) str (Nat.lt_succ_self _) [] []]

theorem join_cons_head (d c : Char) (f : Str) (fs : List Str) :
    join d ((c :: f) :: fs) = c :: join d (f :: fs) := by
  cases fs <;> simp [join]

theorem join_nil_cons (d : Char) (fs : List Str) (h : fs ≠ []) :
    join d ([] :: fs) = d :: join d fs := by
  cases fs with
  | nil => exact absurd rfl h
  | cons g gs => simp [join]

/-- Rejoining the fields gives the string back, less a final delimiter. -/
theorem join_fields (d : Char) (s : Str) :
    join d (fields d s) = if s.getLast? = some d then s.dropLast else s := by
  induction s with
  | nil => simp [fields, join]
  | cons c rest ih =>
    by_cases hc : c = d
    · subst hc
      rw [fields_cons_delim]
      cases rest with
      | nil => simp [fields, join]
      | cons b rest =>
        have hne : fields c (b :: rest) ≠ [] := by
          rw [Ne, fields_eq_nil]; simp
        rw [join_nil_cons c _ hne, ih]
        simp only [List.getLast?_cons_cons, List.dropLast_cons₂]
        split <;> rfl
    · rw [fields_cons_other d c rest hc]
      cases rest with
      | nil =>
        have : ¬ (c = d) := hc
        simp [fields, join, this]
      | cons b rest =>
        have hne : fields d (b :: rest) ≠ [] := by
          rw [Ne, fields_eq_nil]; simp
        cases hf : fields d (b :: rest) with
        | nil => exact absurd hf hne
        | cons f fs =>
          simp only []
          rw [join_cons_head, ← hf, ih]
          simp only [List.getLast?_cons_cons, List.dropLast_cons₂]
          split <;> rfl

/-- The number of fields: one per delimiter, and one more for a non-empty last run. -/
theorem length_fields (d : Char) (s : Str) :
    (fields d s).length =
      s.count d + (if s ≠ [] ∧ s.getLast? ≠ some d then 1 else 0) := by
  induction s with
  | nil => simp [fields]
  | cons c rest ih =>
    by_cases hc : c = d
    · subst hc
      rw [fields_cons_delim]
      cases rest with
      | nil => simp [fields]
      | cons b rest =>
        simp only [List.length_cons, ih, List.getLast?_cons_cons, List.count_cons_self]
        simp
        omega
    · rw [fields_cons_other d c rest hc]
      cases rest with
      | nil =>
        have : ¬ (c = d) := hc
        simp [fields, this, List.count_cons]
      | cons b rest =>
        have hne : fields d (b :: rest) ≠ [] := by
          rw [Ne, fields_eq_nil]; simp
        cases hf : fields d (b :: rest) with
        | nil => exact absurd hf hne
        | cons f fs =>
          have hcd : (c == d) = false := by simpa using hc
          simp only [List.length_cons]
          rw [hf] at ih
          simp only [List.length_cons] at ih
          rw [ih]
          simp [List.count_cons, hcd]

theorem lastRun_append (d : Char) (pre post : Str) (h : d ∉ post) :
    lastRun d (pre ++ d :: post) = post := by
  have hp : ∀ a ∈ post.reverse, (fun c => c != d) a = true := by
    intro a ha
    have : a ≠ d := fun e => h (by simpa [e] using ha)
    simpa using this
  simp only [lastRun, List.rtakeWhile, List.reverse_append, List.reverse_cons,
    List.append_assoc]
  rw [List.takeWhile_append_of_pos hp]
  simp [List.takeWhile_append, List.takeWhile]

theorem lastRun_of_not_mem (d : Char) (s : Str) (h : d ∉ s) : lastRun d s = s := by
  rw [lastRun, List.rtakeWhile_eq_self_iff]
  intro a ha
  have : a ≠ d := fun e => h (by simpa [e] using ha)
  simpa using this

theorem exists_last_occurrence (d : Char) (s : Str) (h : d ∈ s) :
    ∃ pre post, s = pre ++ d :: post ∧ d ∉ post := by
  induction s with
  | nil => simp at h
  | cons c s ih =>
    by_cases hm : d ∈ s
    · obtain ⟨pre, post, e, hn⟩ := ih hm
      exact ⟨c :: pre, post, by simp [e], hn⟩
    · have hc : d = c := by
        rcases List.mem_cons.1 h with e | e
        · exact e
        · exact absurd e hm
      exact ⟨[], s, by simp [hc], hm⟩

/-- A delimiter closes the field before it: the fields after it do not depend on what
came before. -/
theorem fields_append_delim (d : Char) (a b : Str) :
    fields d (a ++ d :: b) = fields d (a ++ [d]) ++ fields d b := by
  induction a with
  | nil => simp [fields]
  | cons c a ih =>
    by_cases hc : c = d
    · subst hc
      simp only [List.cons_append, fields_cons_delim, ih, List.cons_append]
    · simp only [List.cons_append]
      rw [fields_cons_other d c _ hc, fields_cons_other d c _ hc, ih]
      have hne : fields d (a ++ [d]) ≠ [] := by
        rw [Ne, fields_eq_nil]; simp
      cases hf : fields d (a ++ [d]) with
      | nil => exact absurd hf hne
      | cons f fs => simp

/-- The last field is the last run, when that run is not empty. -/
theorem getLast_fields (d : Char) (s : Str) (hne : s ≠ []) (hl : s.getLast? ≠ some d) :
    (fields d s).getLast? = some (lastRun d s) := by
  by_cases hm : d ∈ s
  · obtain ⟨pre, post, e, hn⟩ := exists_last_occurrence d s hm
    subst e
    have hpost : post ≠ [] := by
      intro e
      subst e
      exact hl (by simp)
    rw [fields_append_delim, fields_of_not_mem d post hn hpost, lastRun_append d pre post hn]
    simp
  · rw [fields_of_not_mem d s hm hne, lastRun_of_not_mem d s hm]
    simp

/-- Splitting undoes joining, for delimiter-free fields the last of which is not empty. -/
theorem fields_join (d : Char) (F : List Str) (hne : F ≠ []) (hfree : ∀ f ∈ F, d ∉ f)
    (hlast : F.getLast? ≠ some []) : fields d (join d F) = F := by
  induction F with
  | nil => exact absurd rfl hne
  | cons f F ih =>
    cases F with
    | nil =>
      have hf : f ≠ [] := by
        intro e
        subst e
        exact hlast (by simp)
      simpa [join] using fields_of_not_mem d f (hfree f (by simp)) hf
    | cons g G =>
      have h1 : fields d (join d (g :: G)) = g :: G := by
        apply ih (by simp)
        · intro x hx
          exact hfree x (List.mem_cons_of_mem _ hx)
        · simpa [List.getLast?_cons_cons] using hlast
      simp only [join]
      rw [fields_append d f _ (hfree f (by simp)), h1]

theorem findFrom_ne_none_iff (pat s : Str) (i : Nat) :
    findFrom pat s i ≠ none ↔ pat <:+: s := by
  induction s generalizing i with
  | nil =>
    simp only [findFrom, List.infix_nil]
    split <;> simp_all
  | cons c cs ih =>
    simp only [findFrom, List.infix_cons_iff]
    by_cases hp : pat.isPrefixOf (c :: cs) = true
    · simp only [hp, if_true]
      simp [List.isPrefixOf_iff_prefix.1 hp]
    · have hp2 : ¬ pat <+: c :: cs := fun h => hp (List.isPrefixOf_iff_prefix.2 h)
      simp only [hp, if_false, Bool.false_eq_true, ih (i + 1)]
      simp [hp2]

/-- The test `line.find(pat) != string::npos` holds exactly when `pat` occurs in `line` as
a contiguous substring. -/
theorem find_ne_none_iff (s pat : Str) : find s pat ≠ none ↔ pat <:+: s :=
  findFrom_ne_none_iff pat s 0

theorem marker_length : marker.length = 13 := by decide

theorem marker_le_length (line : Str) (h : marker <:+: line) : 13 ≤ line.length := by
  have := h.length_le
  rwa [marker_length] at this

/-- On sizes that fit 64 bits, `sizeSub` is subtraction modulo `2 ^ 64`. -/
theorem sizeSub_eq_mod (a b : Nat) (ha : a < 2 ^ 64) (hb : b < 2 ^ 64) :
    sizeSub a b = (a + 2 ^ 64 - b) % 2 ^ 64 := by
  unfold sizeSub
  split
  · have e : a + 2 ^ 64 - b = (a - b) + 2 ^ 64 := by omega
    rw [e, Nat.add_mod_right, Nat.mod_eq_of_lt (by omega)]
  · rw [Nat.mod_eq_of_lt (by omega)]

/-- The slicing either throws (fewer than 16 characters) or drops the last 4 and then the
first 12 characters. -/
theorem roadName_eq (line : Str) :
    roadName line =
      if line.length < 16 then .error .out_of_range
      else .ok ((line.take (line.length - 4)).drop 12) := by
  unfold roadName substr sizeSub
  by_cases h4 : 4 ≤ line.length
  · simp only [h4, if_true, Nat.not_lt_zero, if_false, List.drop_zero, gt_iff_lt,
      List.length_take]
    by_cases h16 : line.length < 16
    · have : min (line.length - 4) line.length < 12 := by omega
      simp only [h16, this, if_true]
    · have : ¬ (min (line.length - 4) line.length < 12) := by omega
      simp only [h16, this, if_false]
  · have h16 : line.length < 16 := by omega
    simp only [h4, if_false, Nat.not_lt_zero, List.drop_zero, gt_iff_lt, List.length_take, h16,
      if_true]
    have : min (line.length + 2 ^ 64 - 4) line.length < 12 := by omega
    simp only [this, if_true]

theorem body_without_marker (line : Str) (h : ¬ marker <:+: line) : body line = .ok [] := by
  have : ¬ (find line marker ≠ none) := fun e => h ((find_ne_none_iff _ _).1 e)
  simp only [body, this, if_false]

theorem body_with_marker (line r name : Str) (h : marker <:+: line) (hr : roadName line = .ok r)
    (hn : (split r '>')[1]? = some name) :
    body line = .ok (dquote :: name ++ dquote :: [',', ' ']) := by
  have : find line marker ≠ none := (find_ne_none_iff _ _).2 h
  simp only [body, hr, hn]
  rw [if_pos this]

/-- On a stream that is not good the loop of `main` ends at its first test: the body is
never run and nothing is written. -/
theorem mainLoop_not_good (fuel : Nat) (input : IStream) (h : input.good = false)
    (line out : Str) : mainLoop (fuel + 1) input line out = some ⟨out, none⟩ := by
  simp [mainLoop, getline, h]

theorem mainLoop_eq (fuel : Nat) (buf : Str) (h : buf.length < fuel) (line out : Str) :
    mainLoop fuel ⟨buf, false, false⟩ line out = some (scan (fields '\n' buf) out) := by
  induction fuel generalizing buf line out with
  | zero => omega
  | succ fuel ih =>
    by_cases hmem : '\n' ∈ buf
    · obtain ⟨pre, post, e, hn⟩ := exists_first_occurrence _ buf hmem
      subst e
      have hlen : post.length < fuel := by simp at h; omega
      rw [mainLoop, getline_delim _ pre post hn, fields_append _ pre post hn, scan]
      cases hb : body pre with
      | error e => simp
      | ok chunk => simp [ih post hlen]
    · cases buf with
      | nil => simp [mainLoop, getline_nil, fields, scan]
      | cons c rest =>
        have hfuel : ∃ k, fuel = k + 1 := ⟨fuel - 1, by simp at h; omega⟩
        obtain ⟨k, rfl⟩ := hfuel
        rw [fields_of_not_mem _ (c :: rest) hmem (by simp), mainLoop,
          getline_rest _ (c :: rest) hmem (by simp), scan]
        cases hb : body (c :: rest) with
        | error e => simp
        | ok chunk => simp [mainLoop_not_good, IStream.good, scan]

/-- The loop of `main` returns within `content.size() + 1` calls of `getline`. -/
theorem mainLoop_returns (content : Str) (fuel : Nat) (h : content.length < fuel) :
    mainLoop fuel (ifstream (some content)) [] [] = some (main (some content)) := by
  have e1 := mainLoop_eq fuel content h [] []
  have e2 := mainLoop_eq (content.length + 1) content (Nat.lt_succ_self _) [] []
  simp only [ifstream, main, e1, e2, Option.getD_some]

/-- Function `main` on a file that opens: the loop body run over the lines that `getline`
reads, which are the fields of the content split on the newline character. -/
theorem main_eq_scan (content : Str) : main (some content) = scan (split content '\n') [] := by
  simp [main, ifstream, split_eq_fields,
    mainLoop_eq (content.length + 1) content (Nat.lt_succ_self _) [] []]

theorem body_of_wellFormed (line : Str) (h : marker <:+: line) (hw : wellFormed line = true) :
    body line = .ok (quoted line) := by
  unfold wellFormed at hw
  rw [roadName_eq] at hw
  by_cases h16 : line.length < 16
  · simp [h16] at hw
  · simp only [h16, if_false, decide_eq_true_eq] at hw
    have hr : roadName line = .ok ((line.take (line.length - 4)).drop 12) := by
      rw [roadName_eq]; simp only [h16, if_false]
    have hlt : 1 < (split ((line.take (line.length - 4)).drop 12) '>').length := by omega
    have hn : (split ((line.take (line.length - 4)).drop 12) '>')[1]? =
        some ((split ((line.take (line.length - 4)).drop 12) '>').getD 1 []) := by
      simp [List.getD_eq_getElem?_getD, List.getElem?_eq_getElem hlt]
    rw [body_with_marker line _ _ h hr hn]
    simp [quoted, List.rdrop]

theorem scan_of_wellFormed (lines : List Str)
    (h : ∀ line ∈ lines, marker <:+: line → wellFormed line = true) (out : Str) :
    scan lines out = ⟨out ++ expected lines, none⟩ := by
  induction lines generalizing out with
  | nil => simp [scan, expected]
  | cons line rest ih =>
    have hrest : ∀ l ∈ rest, marker <:+: l → wellFormed l = true :=
      fun l hl => h l (List.mem_cons_of_mem _ hl)
    by_cases hm : marker <:+: line
    · rw [scan, body_of_wellFormed line hm (h line (by simp) hm)]
      simp only [ih hrest]
      simp [expected, List.filter_cons, hm]
    · rw [scan, body_without_marker line hm]
      simp only [ih hrest]
      simp [expected, List.filter_cons, hm]

theorem expected_append (X Y : List Str) : expected (X ++ Y) = expected X ++ expected Y := by
  simp [expected]

/-- C1, as stated, fails: `split` of `a>` on `>` is the single field `a`, and joining it
back gives `a`, not `a>`. -/
theorem join_split_trailing_delimiter :
    split "a>".toList '>' = ["a".toList] ∧
      join '>' (split "a>".toList '>') ≠ "a>".toList := by
  decide

/-- C1 (amended): for every string `S` and delimiter `D` such that `S` does not end with
`D`, joining the fields of `split(S, D)` with `D` between consecutive fields gives back
exactly `S`. -/
theorem join_split_roundtrip (S : Str) (D : Char) (h : S.getLast? ≠ some D) :
    join D (split S D) = S := by
  rw [split_eq_fields, join_fields, if_neg h]

theorem join_split_roundtrip_witness :
    join '>' (split "a>>b".toList '>') = "a>>b".toList :=
  join_split_roundtrip "a>>b".toList '>' (by decide)

/-- C2, as stated, fails: `a>` has one `>` but `split` returns one field, not two, and
its last field is `a`, not the empty run after the final `>`; the empty string has no
field at all. -/
theorem split_trailing_field_not_emitted :
    ¬ ((split "a>".toList '>').length = ("a>".toList).count '>' + 1 ∧
        (split "a>".toList '>').getLast? = some (lastRun '>' "a>".toList)) ∧
      (split "a>".toList '>').length = 1 ∧
      (split "a>".toList '>').getLast? = some "a".toList ∧
      lastRun '>' "a>".toList = [] ∧
      split [] '>' = [] := by
  decide

/-- C2 (amended): for every non-empty string `S` that does not end with the delimiter
`D`, `split(S, D)` has exactly (number of occurrences of `D` in `S`) + 1 fields, and its
last field is the run of characters after the final `D` (all of `S` when `D` does not
occur). -/
theorem split_length_and_last (S : Str) (D : Char) (hne : S ≠ [])
    (hl : S.getLast? ≠ some D) :
    (split S D).length = S.count D + 1 ∧ (split S D).getLast? = some (lastRun D S) := by
  rw [split_eq_fields]
  refine ⟨?_, getLast_fields D S hne hl⟩
  rw [length_fields, if_pos ⟨hne, hl⟩]

theorem split_length_and_last_witness :
    (split "a>>b".toList '>').length = ("a>>b".toList).count '>' + 1 ∧
      (split "a>>b".toList '>').getLast? = some (lastRun '>' "a>>b".toList) :=
  split_length_and_last "a>>b".toList '>' (by decide) (by decide)

/-- C3: `split` inverts `join` on every non-empty list of delimiter-free fields whose last
element is not empty; in particular `a>b>c` splits on `>` into `a`, `b`, `c` with `b` at
index 1, and `Main Street>extra` into `Main Street`, `extra` with `extra` at index 1. -/
theorem split_join_inverse :
    (∀ (D : Char) (F : List Str), F ≠ [] → (∀ f ∈ F, D ∉ f) → F.getLast? ≠ some [] →
        split (join D F) D = F) ∧
      split "a>b>c".toList '>' = ["a".toList, "b".toList, "c".toList] ∧
      (split "a>b>c".toList '>')[1]? = some "b".toList ∧
      split "Main Street>extra".toList '>' = ["Main Street".toList, "extra".toList] ∧
      (split "Main Street>extra".toList '>')[1]? = some "extra".toList := by
  refine ⟨?_, by decide, by decide, by decide, by decide⟩
  intro D F hne hfree hlast
  rw [split_eq_fields, fields_join D F hne hfree hlast]

theorem split_join_inverse_witness :
    split (join '>' [[], "a".toList, [], "b".toList]) '>' = [[], "a".toList, [], "b".toList] :=
  split_join_inverse.1 '>' [[], "a".toList, [], "b".toList] (by decide) (by decide) (by decide)

/-- C4: for every sequence of lines in which each line containing the marker is well
formed (the slicing yields a candidate that splits on `>` into at least two fields), the
whole output is the concatenation, in line order, of one chunk per marker line, each a
double quote, the field at index 1, a double quote, a comma and a space; other lines
contribute nothing, nothing is written after the last chunk, and the run ends normally.
The same holds of `main` on every file whose lines are these. -/
theorem scan_output_format (lines : List Str)
    (h : ∀ line ∈ lines, marker <:+: line → wellFormed line = true) :
    scan lines [] = ⟨expected lines, none⟩ ∧
      ∀ content, split content '\n' = lines → main (some content) = ⟨expected lines, none⟩ := by
  have e := scan_of_wellFormed lines h []
  simp only [List.nil_append] at e
  refine ⟨e, ?_⟩
  intro content hc
  rw [main_eq_scan, hc, e]

theorem scan_output_format_witness :
    scan [exampleLine, "<ul>".toList, "<li><a href=\"#roads-x>Ring Road</a>".toList] [] =
      ⟨"\"\", \"Ring Road\", ".toList, none⟩ :=
  (scan_output_format [exampleLine, "<ul>".toList, "<li><a href=\"#roads-x>Ring Road</a>".toList]
    (by decide)).1.trans (by decide)

/-- C5, as stated, fails: the 15-character line `a href="#roads-` contains the marker, yet
the second `substr` throws `std::out_of_range` and no candidate is produced. -/
theorem roadName_short_line :
    marker <:+: "a href=\"#roads-".toList ∧
      find "a href=\"#roads-".toList marker ≠ none ∧
      roadName "a href=\"#roads-".toList = .error .out_of_range ∧
      roadName "a href=\"#roads-".toList ≠
        .ok ((("a href=\"#roads-".toList).rdrop 4).drop 12) := by
  decide

/-- C5 (amended): for every line `L` of at least 16 characters that contains the marker,
the test of the scan succeeds, the slicing succeeds, and the candidate passed to `split`
is `L` with its last 4 characters removed and then the first 12 characters of the
remainder removed. -/
theorem roadName_candidate (L : Str) (h : marker <:+: L) (h16 : 16 ≤ L.length) :
    find L marker ≠ none ∧ roadName L = .ok ((L.rdrop 4).drop 12) := by
  refine ⟨(find_ne_none_iff L marker).2 h, ?_⟩
  rw [roadName_eq, if_neg (by omega)]
  rfl

theorem roadName_candidate_witness :
    find exampleLine marker ≠ none ∧
      roadName exampleLine = .ok ((exampleLine.rdrop 4).drop 12) :=
  roadName_candidate exampleLine (by decide) (by decide)

/-- C6: for every sequence of lines none of which contains the marker, the loop body
writes nothing and raises no fault on any of them (whatever their length), the output is
the empty string and the run ends normally; the same holds of `main` on every file whose
lines are these. -/
theorem scan_without_marker (lines : List Str) (h : ∀ line ∈ lines, ¬ marker <:+: line) :
    scan lines [] = ⟨[], none⟩ ∧
      (∀ line ∈ lines, find line marker = none ∧ body line = .ok []) ∧
      ∀ content, split content '\n' = lines → main (some content) = ⟨[], none⟩ := by
  have hb : ∀ line ∈ lines, find line marker = none ∧ body line = .ok [] := by
    intro line hl
    refine ⟨?_, body_without_marker line (h line hl)⟩
    by_contra hf
    exact h line hl ((find_ne_none_iff line marker).1 hf)
  have e : ∀ out, scan lines out = ⟨out, none⟩ := by
    induction lines with
    | nil => intro out; rfl
    | cons line rest ih =>
      intro out
      rw [scan, (hb line (by simp)).2]
      simp only [List.append_nil]
      exact ih (fun l hl => h l (List.mem_cons_of_mem _ hl))
        (fun l hl => hb l (List.mem_cons_of_mem _ hl)) out
  refine ⟨e [], hb, ?_⟩
  intro content hc
  rw [main_eq_scan, hc, e]

theorem scan_without_marker_witness :
    scan ["<ul>".toList, [], "href=#roads-".toList] [] = ⟨[], none⟩ :=
  (scan_without_marker ["<ul>".toList, [], "href=#roads-".toList] (by decide)).1

/-- C7: when the input file cannot be opened, the first `getline` of the loop fails, so the
loop ends at its first test without running its body, whatever bound is put on it; the
output is the empty string and the run ends normally, with no fault. -/
theorem main_missing_file :
    main none = ⟨[], none⟩ ∧
      (∀ line, (getline (ifstream none) line '\n').1.failbit = true) ∧
      ∀ fuel line out, mainLoop (fuel + 1) (ifstream none) line out = some ⟨out, none⟩ := by
  refine ⟨by decide, ?_, ?_⟩
  · intro line
    rw [getline_not_good _ _ (by decide)]
  · intro fuel line out
    exact mainLoop_not_good fuel (ifstream none) (by decide) line out

/-- C8: on the single line `<li><a href="#roads-Main Street>></li>` (with or without a
final newline) the program writes exactly one double-quoted field followed by a comma and
a space, and ends normally.  The candidate is `"#roads-Main Street>><`, which splits into
three fields; the field written, element 1, is the empty string. -/
theorem main_example_line :
    main (some exampleLine) = ⟨"\"\", ".toList, none⟩ ∧
      main (some (exampleLine ++ ['\n'])) = ⟨"\"\", ".toList, none⟩ ∧
      roadName exampleLine = .ok ((exampleLine.rdrop 4).drop 12) ∧
      (exampleLine.rdrop 4).drop 12 = "\"#roads-Main Street>><".toList ∧
      split ((exampleLine.rdrop 4).drop 12) '>' =
        ["\"#roads-Main Street".toList, [], "<".toList] ∧
      ∃ f, (split ((exampleLine.rdrop 4).drop 12) '>')[1]? = some f ∧
        (main (some exampleLine)).out = dquote :: f ++ [dquote, ',', ' '] := by
  refine ⟨by decide, by decide, by decide, by decide, by decide, [], by decide, by decide⟩

/-- C9: for every string `S` and delimiter `D`, if `split(S, D)` has no fields then `S` is
the empty string. -/
theorem split_nil_only_of_empty (S : Str) (D : Char) (h : split S D = []) : S = [] := by
  rw [split_eq_fields] at h
  exact (fields_eq_nil D S).1 h

theorem split_nil_only_of_empty_witness : split [] '>' = [] ∧ ([] : Str) = [] :=
  ⟨by decide, split_nil_only_of_empty [] '>' (by decide)⟩

/-- C10: for all line sequences `X` and `Y` in which every marker line is well formed, the
output of scanning `X` followed by `Y` is the output of scanning `X` followed by the
output of scanning `Y`, the run ends normally, and the output is the concatenation of
what each line yields when scanned alone. -/
theorem scan_append_out (X Y : List Str)
    (h : ∀ line ∈ X ++ Y, marker <:+: line → wellFormed line = true) :
    (scan (X ++ Y) []).out = (scan X []).out ++ (scan Y []).out ∧
      (scan (X ++ Y) []).fault = none ∧
      (scan (X ++ Y) []).out = ((X ++ Y).map (fun line => (scan [line] []).out)).flatten := by
  have hX : ∀ line ∈ X, marker <:+: line → wellFormed line = true :=
    fun l hl => h l (List.mem_append_left _ hl)
  have hY : ∀ line ∈ Y, marker <:+: line → wellFormed line = true :=
    fun l hl => h l (List.mem_append_right _ hl)
  have key : ∀ lines : List Str, (∀ line ∈ lines, marker <:+: line → wellFormed line = true) →
      expected lines = (lines.map (fun line => (scan [line] []).out)).flatten := by
    intro lines
    induction lines with
    | nil => intro _; rfl
    | cons l rest ih =>
      intro hl
      have h1 := scan_of_wellFormed [l] (fun x hx => hl x (by
        rw [List.mem_singleton.1 hx]; simp)) []
      have h2 := expected_append [l] rest
      simp only [List.singleton_append] at h2
      rw [h2, ih (fun x hx => hl x (List.mem_cons_of_mem _ hx))]
      simp [h1]
  have e1 := scan_of_wellFormed (X ++ Y) h []
  have e2 := scan_of_wellFormed X hX []
  have e3 := scan_of_wellFormed Y hY []
  simp only [List.nil_append] at e1 e2 e3
  rw [e1, e2, e3]
  exact ⟨expected_append X Y, rfl, key (X ++ Y) h⟩

theorem scan_append_out_witness :
    (scan ([exampleLine, "<ul>".toList] ++ [exampleLine]) []).out =
      (scan [exampleLine, "<ul>".toList] []).out ++ (scan [exampleLine] []).out :=
  (scan_append_out [exampleLine, "<ul>".toList] [exampleLine] (by decide)).1


/-- A delimiter that ends a string which is not empty and does not already end with one
adds no field. -/
theorem fields_concat_delim (d : Char) (s : Str) (hne : s ≠ []) (hl : s.getLast? ≠ some d) :
    fields d (s ++ [d]) = fields d s := by
  induction s with
  | nil => exact absurd rfl hne
  | cons c rest ih =>
    cases rest with
    | nil =>
      have hc : c ≠ d := fun e => hl (by simp [e])
      simp [fields, hc]
    | cons b rest =>
      have e := ih (by simp) (by simpa [List.getLast?_cons_cons] using hl)
      by_cases hc : c = d
      · subst hc
        simp only [List.cons_append, fields_cons_delim] at e ⊢
        rw [e]
      · simp only [List.cons_append] at e ⊢
        rw [fields_cons_other d c _ hc, fields_cons_other d c _ hc, e]

/-- There is a second field exactly when a delimiter stands before the last character. -/
theorem one_lt_length_fields_iff (d : Char) (s : Str) :
    1 < (fields d s).length ↔ d ∈ s.dropLast := by
  rcases List.eq_nil_or_concat s with rfl | ⟨init, l, e⟩
  · simp [fields]
  · rw [List.concat_eq_append] at e
    subst e
    rw [List.dropLast_concat]
    constructor
    · intro h
      by_contra hn
      by_cases hld : l = d
      · subst hld
        rw [fields_append l init [] hn] at h
        simp [fields] at h
      · have hm : d ∉ init ++ [l] := by
          simp only [List.mem_append, List.mem_singleton, not_or]
          exact ⟨hn, fun e => hld e.symm⟩
        rw [fields_of_not_mem d _ hm (by simp)] at h
        simp at h
    · intro h
      obtain ⟨pre, post, e, hn⟩ := exists_first_occurrence d init h
      subst e
      have hne : fields d (post ++ [l]) ≠ [] := by
        rw [Ne, fields_eq_nil]; simp
      rw [List.append_assoc, List.cons_append, fields_append d pre _ hn, List.length_cons]
      have := List.length_pos.2 hne
      omega

/-- No field contains the delimiter. -/
theorem not_mem_of_mem_fields (d : Char) (s : Str) : ∀ f ∈ fields d s, d ∉ f := by
  induction s with
  | nil => simp [fields]
  | cons c rest ih =>
    by_cases hc : c = d
    · subst hc
      rw [fields_cons_delim]
      intro f hf
      rcases List.mem_cons.1 hf with e | e
      · simp [e]
      · exact ih f e
    · rw [fields_cons_other d c rest hc]
      cases hr : fields d rest with
      | nil =>
        intro f hf
        have e : f = [c] := by simpa using hf
        subst e
        simpa using fun e : d = c => hc e.symm
      | cons g gs =>
        rw [hr] at ih
        intro f hf
        rcases List.mem_cons.1 hf with e | e
        · subst e
          have hg := ih g (by simp)
          simp only [List.mem_cons, not_or]
          exact ⟨fun e => hc e.symm, hg⟩
        · exact ih f (List.mem_cons_of_mem _ e)

/-- The fields, one after the other, are the string with its delimiters deleted. -/
theorem flatten_fields (d : Char) (s : Str) :
    (fields d s).flatten = s.filter (fun c => c != d) := by
  induction s with
  | nil => simp [fields]
  | cons c rest ih =>
    by_cases hc : c = d
    · subst hc
      rw [fields_cons_delim]
      simp [ih]
    · rw [fields_cons_other d c rest hc]
      have hf : (c :: rest).filter (fun x => x != d) = c :: rest.filter (fun x => x != d) := by
        simp [hc]
      rw [hf, ← ih]
      cases hr : fields d rest with
      | nil => simp
      | cons g gs => simp


/-- Membership in all but the last character, by position. -/
theorem mem_dropLast_iff (d : Char) (s : Str) :
    d ∈ s.dropLast ↔ ∃ i, i + 1 < s.length ∧ s[i]? = some d := by
  rw [List.mem_iff_getElem?]
  constructor
  · rintro ⟨i, hi⟩
    rw [List.getElem?_dropLast] at hi
    by_cases hlt : i < s.length - 1
    · rw [if_pos hlt] at hi
      exact ⟨i, by omega, hi⟩
    · rw [if_neg hlt] at hi
      exact absurd hi (by simp)
  · rintro ⟨i, hlt, hi⟩
    refine ⟨i, ?_⟩
    rw [List.getElem?_dropLast, if_pos (by omega), hi]

/-- C11: for every line `L = P ++ ">" ++ N ++ T` that contains the marker, where `P` has at
least 12 characters and no `>` at position 12 or later, `N` is non-empty and contains no
`>`, and `T` has exactly 4 characters, the chunk the loop body writes for `L` is a double
quote, `N`, a double quote, a comma and a space; scanning the line alone writes just that
and ends normally. -/
theorem body_on_expected_shape (P N T : Str) (hm : marker <:+: P ++ ['>'] ++ N ++ T)
    (hP : 12 ≤ P.length) (hfree : '>' ∉ P.drop 12) (hN : N ≠ []) (hNfree : '>' ∉ N)
    (hT : T.length = 4) :
    body (P ++ ['>'] ++ N ++ T) = .ok (dquote :: N ++ [dquote, ',', ' ']) ∧
      scan [P ++ ['>'] ++ N ++ T] [] = ⟨dquote :: N ++ [dquote, ',', ' '], none⟩ := by
  have hNlen : 0 < N.length := List.length_pos.2 hN
  have hlen : (P ++ ['>'] ++ N ++ T).length = (P ++ ['>'] ++ N).length + 4 := by
    rw [List.length_append, hT]
  have htake : (P ++ ['>'] ++ N ++ T).take ((P ++ ['>'] ++ N ++ T).length - 4) =
      P ++ ['>'] ++ N := by
    rw [hlen, Nat.add_sub_cancel]
    exact List.take_left' rfl
  have hdrop : (P ++ ['>'] ++ N).drop 12 = P.drop 12 ++ '>' :: N := by
    rw [List.append_assoc, List.drop_append_of_le_length hP]
    rfl
  have h16 : ¬ (P ++ ['>'] ++ N ++ T).length < 16 := by
    rw [hlen]
    simp only [List.length_append, List.length_cons, List.length_nil]
    omega
  have hr : roadName (P ++ ['>'] ++ N ++ T) = .ok (P.drop 12 ++ '>' :: N) := by
    rw [roadName_eq, if_neg h16, htake, hdrop]
  have hs : (split (P.drop 12 ++ '>' :: N) '>')[1]? = some N := by
    rw [split_eq_fields, fields_append _ _ _ hfree, fields_of_not_mem _ N hNfree hN]
    rfl
  have hb := body_with_marker _ _ _ hm hr hs
  refine ⟨hb, ?_⟩
  rw [scan, hb]
  rfl

theorem body_on_expected_shape_witness :
    body ("<li><a href=\"#roads-Ring-Road\"".toList ++ ['>'] ++ "Ring Road".toList ++
        "</a>".toList) = .ok (dquote :: "Ring Road".toList ++ [dquote, ',', ' ']) :=
  (body_on_expected_shape "<li><a href=\"#roads-Ring-Road\"".toList "Ring Road".toList
    "</a>".toList (by decide) (by decide) (by decide) (by decide) (by decide) (by decide)).1

/-- C12: for every string `S` and delimiter `D`, the number of fields of `split(S, D)` is
the number of occurrences of `D` in `S`, plus 1 exactly when `S` is non-empty and its last
character is not `D`; hence the empty string has no fields, and a delimiter put at the end
of a non-empty string that does not end with one adds no field. -/
theorem split_field_count (S : Str) (D : Char) :
    (split S D).length = S.count D + (if S ≠ [] ∧ S.getLast? ≠ some D then 1 else 0) ∧
      split [] D = [] ∧
      (S ≠ [] → S.getLast? ≠ some D →
        split (S ++ [D]) D = split S D ∧ (split (S ++ [D]) D).length = (S ++ [D]).count D) := by
  refine ⟨?_, by simp [split_eq_fields, fields], ?_⟩
  · rw [split_eq_fields, length_fields]
  · intro hne hl
    rw [split_eq_fields, split_eq_fields, fields_concat_delim D S hne hl]
    refine ⟨rfl, ?_⟩
    rw [length_fields, if_pos ⟨hne, hl⟩]
    simp

theorem split_field_count_witness :
    split ("a>b".toList ++ ['>']) '>' = split "a>b".toList '>' ∧
      (split ("a>b".toList ++ ['>']) '>').length = ("a>b".toList ++ ['>']).count '>' :=
  (split_field_count "a>b".toList '>').2.2 (by decide) (by decide)


/-- C13: for every candidate `C`, element 1 of `split(C, '>')` exists if and only if `C`
has a `>` at some position other than its last; a candidate without `>`, or whose only
`>` is its final character, has no element 1; and on a marker line whose slicing yields
`C`, the loop body ends in the out-of-bounds fault exactly in those cases. -/
theorem index_one_in_bounds_iff (C : Str) :
    (1 < (split C '>').length ↔ ∃ i, i + 1 < C.length ∧ C[i]? = some '>') ∧
      ('>' ∉ C → (split C '>')[1]? = none) ∧
      ('>' ∉ C → (split (C ++ ['>']) '>')[1]? = none) ∧
      ∀ L, marker <:+: L → roadName L = .ok C →
        (body L = .error .index_out_of_bounds ↔
          ¬ ∃ i, i + 1 < C.length ∧ C[i]? = some '>') := by
  have key : 1 < (split C '>').length ↔ ∃ i, i + 1 < C.length ∧ C[i]? = some '>' := by
    rw [split_eq_fields, one_lt_length_fields_iff, mem_dropLast_iff]
  refine ⟨key, ?_, ?_, ?_⟩
  · intro hn
    have h : ¬ 1 < (split C '>').length := by
      rw [split_eq_fields, one_lt_length_fields_iff]
      exact fun hm => hn (List.mem_of_mem_dropLast hm)
    exact List.getElem?_eq_none (by omega)
  · intro hn
    have h : ¬ 1 < (split (C ++ ['>']) '>').length := by
      rw [split_eq_fields, one_lt_length_fields_iff, List.dropLast_concat]
      exact hn
    exact List.getElem?_eq_none (by omega)
  · intro L hm hr
    have hf : find L marker ≠ none := (find_ne_none_iff L marker).2 hm
    rw [← key]
    simp only [body, hr]
    rw [if_pos hf]
    constructor
    · intro hb hlt
      rw [List.getElem?_eq_getElem hlt] at hb
      simp at hb
    · intro hlt
      rw [List.getElem?_eq_none (by omega)]

theorem index_one_in_bounds_iff_witness :
    (split "x>".toList '>')[1]? = none ∧ (split "x>y".toList '>')[1]? = some "y".toList :=
  ⟨(index_one_in_bounds_iff "x".toList).2.2.1 (by decide), by decide⟩

/-- C14: every line that contains the 13-character marker has at least 13 characters, so
`line.size()-4` does not wrap and the first slice is the line less its last 4 characters;
the second slice `substr(12)` is in range if and only if the line has at least 16
characters, so on a marker line of 13, 14 or 15 characters the slicing ends in
`std::out_of_range` and yields no candidate. -/
theorem slice_ranges (L : Str) (hm : marker <:+: L) :
    13 ≤ L.length ∧
      sizeSub L.length 4 + 4 = L.length ∧
      substr L 0 (some (sizeSub L.length 4)) = .ok (L.rdrop 4) ∧
      ((∃ c, substr (L.rdrop 4) 12 none = .ok c) ↔ 16 ≤ L.length) ∧
      (substr (L.rdrop 4) 12 none = .error .out_of_range ↔ L.length < 16) ∧
      (L.length = 13 ∨ L.length = 14 ∨ L.length = 15 → roadName L = .error .out_of_range) ∧
      ((∃ c, roadName L = .ok c) ↔ 16 ≤ L.length) := by
  have h13 := marker_le_length L hm
  have hsub : sizeSub L.length 4 = L.length - 4 := by
    unfold sizeSub
    rw [if_pos (by omega)]
  have hlen : (L.rdrop 4).length = L.length - 4 := by
    simp only [List.rdrop, List.length_take]
    omega
  have hsecond : substr (L.rdrop 4) 12 none =
      if L.length < 16 then .error .out_of_range else .ok ((L.rdrop 4).drop 12) := by
    unfold substr
    rw [hlen]
    by_cases h : L.length < 16
    · rw [if_pos (by omega), if_pos h]
    · rw [if_neg (by omega), if_neg h]
  refine ⟨h13, by omega, ?_, ?_, ?_, ?_, ?_⟩
  · rw [hsub]
    simp [substr, List.rdrop]
  · rw [hsecond]
    by_cases h : L.length < 16
    · simp [h]
    · simp only [h, if_false]
      exact ⟨fun _ => by omega, fun _ => ⟨_, rfl⟩⟩
  · rw [hsecond]
    by_cases h : L.length < 16
    · simp [h]
    · simp [h]
  · intro h
    rw [roadName_eq, if_pos (by omega)]
  · rw [roadName_eq]
    by_cases h : L.length < 16
    · simp [h]
    · simp only [h, if_false]
      exact ⟨fun _ => by omega, fun _ => ⟨_, rfl⟩⟩

theorem slice_ranges_witness :
    roadName marker = .error .out_of_range ∧
      roadName ('a' :: marker) = .error .out_of_range ∧
      roadName ('a' :: ' ' :: marker) = .error .out_of_range ∧
      roadName ('<' :: 'a' :: ' ' :: marker) = .ok [] :=
  ⟨(slice_ranges marker (by decide)).2.2.2.2.2.1 (by decide), by decide, by decide, by decide⟩

/-- C15: for every string `S` and delimiter `D`, joining `split(S, D)` with `D` gives `S`
when `S` is empty or does not end with `D`, and `S` with its final character removed when
`S` ends with `D`. -/
theorem join_split_exact (S : Str) (D : Char) :
    join D (split S D) = (if S.getLast? = some D then S.dropLast else S) ∧
      join D (split [] D) = [] ∧
      join D (split (S ++ [D]) D) = S := by
  refine ⟨?_, ?_, ?_⟩
  · rw [split_eq_fields, join_fields]
  · rw [split_eq_fields, join_fields]
    rfl
  · rw [split_eq_fields, join_fields, if_pos (List.getLast?_concat S), List.dropLast_concat]

/-- C16: for every string `S` and delimiter `D`, no field of `split(S, D)` contains `D`,
and the fields concatenated in order are `S` with every occurrence of `D` deleted. -/
theorem split_fields_delimiter_free (S : Str) (D : Char) :
    (∀ f ∈ split S D, D ∉ f) ∧ (split S D).flatten = S.filter (fun c => c != D) := by
  rw [split_eq_fields]
  exact ⟨not_mem_of_mem_fields D S, flatten_fields D S⟩

theorem split_fields_delimiter_free_witness :
    '>' ∉ "b".toList ∧ (split "a>>b>".toList '>').flatten = "ab".toList :=
  ⟨(split_fields_delimiter_free "a>>b>".toList '>').1 "b".toList (by decide),
    (split_fields_delimiter_free "a>>b>".toList '>').2.trans (by decide)⟩

end City
